import Mathlib

/-!
Verification of the iota-core engine components against their specification.

Shallow embedding of the Go sources: slot notarization and the ledger slot
commit (slotnotarization/manager.go, ledger/ledger.go), chain thresholds
(protocol/chain.go), chain switching (chainmanagerv1), mempool inclusion
flags (mempoolv1), the conflict DAG acceptance state and vote casting
(conflictdagv1), allotment processing (ledger.go), and the attestation
export (slotattestation).  Machine integers (iotago.SlotIndex, uint64) are
modelled as Nat; where Go guards a subtraction the Nat truncated subtraction
agrees with the unsigned semantics, and where Go does not guard (the
attestation export) the wrap-around is modelled explicitly modulo 2 ^ 64.
-/

namespace IotaCore

/-! ## Chain thresholds (protocol/chain.go) -/

/-- Derived variable from NewChain in protocol/chain.go: if no commitment has
been verified yet the threshold is SyncWindow + 1, otherwise it is the index
of the latest verified commitment plus SyncWindow + 1.  A commitment is
represented by its slot index. -/
def syncThreshold (syncWindow : Nat) (latestVerified : Option Nat) : Nat :=
  match latestVerified with
  | none => syncWindow + 1
  | some idx => idx + syncWindow + 1

/-- Derived variable from NewChain in protocol/chain.go: zero while the latest
commitment is absent or its index is below WarpSyncOffset, otherwise the index
minus WarpSyncOffset. -/
def warpSyncThreshold (warpSyncOffset : Nat) (latestCommitment : Option Nat) : Nat :=
  match latestCommitment with
  | none => 0
  | some idx => if idx < warpSyncOffset then 0 else idx - warpSyncOffset

/-- Claim C7: for every chain, the sync threshold equals the index of the
latest verified commitment (0 while none is verified) plus the sync window
plus one, and the warp sync threshold equals the index of the latest
commitment minus the warp sync offset, saturated at 0 when the commitment is
absent or its index is below the offset (Nat truncated subtraction is exactly
that saturation). -/
theorem c7_chain_thresholds (syncWindow warpSyncOffset : Nat)
    (latestVerified latestCommitment : Option Nat) :
    syncThreshold syncWindow latestVerified = latestVerified.getD 0 + syncWindow + 1 ∧
    warpSyncThreshold warpSyncOffset latestCommitment = latestCommitment.getD 0 - warpSyncOffset := by
  constructor
  · cases latestVerified <;> simp [syncThreshold]
  · cases latestCommitment with
    | none => simp [warpSyncThreshold]
    | some idx =>
      simp only [warpSyncThreshold, Option.getD_some]
      split <;> omega

/-! ## Chain switching (chainmanagerv1) -/

/-- One update step of selectHeaviestCandidate in chainmanagerv1: when the
updated weight of a chain does not exceed the verified weight of the main
chain the candidate variable is left alone; otherwise the chain replaces the
current candidate exactly when the current candidate is nil, was evicted, or
has a strictly smaller weight.  Chains are represented by Nat identifiers;
the weight and evicted views are passed as functions. -/
def selectHeaviestCandidate (mainVerifiedWeight : Nat) (weight : Nat → Nat)
    (evicted : Nat → Bool) (currentCandidate : Option Nat) (newCandidate : Nat) :
    Option Nat :=
  if weight newCandidate ≤ mainVerifiedWeight then currentCandidate
  else
    match currentCandidate with
    | none => some newCandidate
    | some cur =>
      if evicted cur = true ∨ weight cur < weight newCandidate then some newCandidate
      else some cur

/-- Claim C8: a chain becomes the candidate only when its weight strictly
exceeds the verified weight of the main chain and the current candidate is
nil, evicted, or strictly lighter; on equal weight (and in general whenever
the new weight does not exceed the weight of a live current candidate) the
current candidate is kept. -/
theorem c8_chain_switching (mainVerifiedWeight : Nat) (weight : Nat → Nat)
    (evicted : Nat → Bool) (currentCandidate : Option Nat) (newCandidate : Nat) :
    (selectHeaviestCandidate mainVerifiedWeight weight evicted currentCandidate newCandidate
        ≠ currentCandidate →
      mainVerifiedWeight < weight newCandidate ∧
      ∀ cur, currentCandidate = some cur → evicted cur = true ∨ weight cur < weight newCandidate) ∧
    (∀ cur, currentCandidate = some cur → evicted cur = false →
      weight newCandidate ≤ weight cur →
      selectHeaviestCandidate mainVerifiedWeight weight evicted currentCandidate newCandidate
        = currentCandidate) := by
  constructor
  · intro hne
    unfold selectHeaviestCandidate at hne
    by_cases hle : weight newCandidate ≤ mainVerifiedWeight
    · simp [hle] at hne
    · refine ⟨by omega, ?_⟩
      intro cur hcur
      subst hcur
      simp only [hle, if_false] at hne
      by_cases hev : evicted cur = true
      · exact Or.inl hev
      · by_cases hw : weight cur < weight newCandidate
        · exact Or.inr hw
        · simp [hev, hw] at hne
  · intro cur hcur hev hw
    subst hcur
    unfold selectHeaviestCandidate
    by_cases hle : weight newCandidate ≤ mainVerifiedWeight
    · simp [hle]
    · simp [hle, hev]
      omega

/-! ## Mempool inclusion flags (mempoolv1) -/

/-- Inclusion flags of a mempool entity.  The committed and orphaned reactive
variables hold a slot index with 0 as the unset value, exactly as in the Go
struct where the zero value of iotago.SlotIndex marks a not yet
committed / not yet orphaned entity. -/
structure InclusionFlags where
  accepted : Bool
  committed : Nat
  rejected : Bool
  orphaned : Nat
deriving DecidableEq

/-- Fresh flags as produced by newInclusionFlags: everything unset. -/
def newInclusionFlags : InclusionFlags :=
  { accepted := false, committed := 0, rejected := false, orphaned := 0 }

/-- Transformation function installed on the orphaned variable in
newInclusionFlags: a non-zero current value is kept, otherwise the new value
is stored. -/
def orphanedTransform (currentValue newValue : Nat) : Nat :=
  if currentValue ≠ 0 then currentValue else newValue

/-- setOrphaned: stores the slot through the transformation of the orphaned
variable. -/
def setOrphaned (f : InclusionFlags) (slot : Nat) : InclusionFlags :=
  { f with orphaned := orphanedTransform f.orphaned slot }

/-- setCommitted: stores the slot in the committed variable (no
transformation function, a later write overwrites). -/
def setCommitted (f : InclusionFlags) (slot : Nat) : InclusionFlags :=
  { f with committed := slot }

/-- IsCommitted returns the recorded slot and whether it is non-zero. -/
def isCommitted (f : InclusionFlags) : Nat × Bool :=
  (f.committed, decide (f.committed ≠ 0))

/-- IsOrphaned returns the recorded slot and whether it is non-zero. -/
def isOrphaned (f : InclusionFlags) : Nat × Bool :=
  (f.orphaned, decide (f.orphaned ≠ 0))

/-- Applies setOrphaned for a whole sequence of orphaning events. -/
def setOrphanedList (f : InclusionFlags) (slots : List Nat) : InclusionFlags :=
  slots.foldl setOrphaned f

theorem setOrphanedList_orphaned (f : InclusionFlags) (slots : List Nat) :
    (setOrphanedList f slots).orphaned =
      if f.orphaned ≠ 0 then f.orphaned else ((slots.find? (· != 0)).getD 0) := by
  induction slots generalizing f with
  | nil =>
    simp only [setOrphanedList, List.foldl_nil, List.find?_nil, Option.getD_none]
    split <;> omega
  | cons s rest ih =>
    simp only [setOrphanedList, List.foldl_cons]
    have hrec := ih (setOrphaned f s)
    simp only [setOrphanedList] at hrec
    rw [hrec]
    have hval : (setOrphaned f s).orphaned = if f.orphaned ≠ 0 then f.orphaned else s := by
      simp [setOrphaned, orphanedTransform]
    rw [hval]
    by_cases h : f.orphaned ≠ 0
    · simp [h]
    · simp only [ne_eq, not_not] at h
      by_cases hs : s = 0
      · subst hs
        simp [h, List.find?_cons]
      · have hbs : (s != 0) = true := by simpa using hs
        simp [h, List.find?_cons, hbs, hs]

/-- Claim C5 counterexample: starting from fresh flags, recording orphaning
slot 5 and then orphaning slot 3 reports slot 5, although 3 was also recorded
and 3 < 5, so the reported slot is not the minimum slot ever recorded. -/
theorem c5_counterexample :
    (isOrphaned (setOrphanedList newInclusionFlags [5, 3])).1 = 5 ∧
    3 ∈ [5, 3] ∧ (3 : Nat) < 5 := by
  decide

/-- Claim C5 as amended: the slot reported for a transaction equals the first
non-zero slot ever recorded by setOrphaned (which is the oldest one when
orphaning events arrive in non-decreasing slot order), and once the recorded
slot is non-zero a later setOrphaned never changes it. -/
theorem c5_orphaned_latch (slots : List Nat) (f : InclusionFlags) (s : Nat)
    (h : f.orphaned ≠ 0) :
    (isOrphaned (setOrphanedList newInclusionFlags slots)).1 =
      ((slots.find? (· != 0)).getD 0) ∧
    (setOrphaned f s).orphaned = f.orphaned := by
  constructor
  · rw [isOrphaned, setOrphanedList_orphaned]
    simp [newInclusionFlags]
  · simp [setOrphaned, orphanedTransform, h]

theorem c5_witness :
    (isOrphaned (setOrphanedList newInclusionFlags [5, 3])).1 = 5 ∧
    (setOrphaned ⟨false, 0, false, 5⟩ 7).orphaned = 5 := by
  have h := c5_orphaned_latch [5, 3] ⟨false, 0, false, 5⟩ 7 (by decide)
  exact ⟨by rw [h.1]; decide, h.2⟩

/-- Claim C10: IsCommitted and IsOrphaned report true exactly when the
recorded slot is non-zero; in particular marking a fresh transaction
committed or orphaned at slot 0 leaves it reported as not committed and not
orphaned. -/
theorem c10_zero_sentinel (f : InclusionFlags) :
    ((isCommitted f).2 = true ↔ f.committed ≠ 0) ∧
    ((isOrphaned f).2 = true ↔ f.orphaned ≠ 0) ∧
    (isCommitted (setCommitted newInclusionFlags 0)).2 = false ∧
    (isOrphaned (setOrphaned newInclusionFlags 0)).2 = false := by
  refine ⟨?_, ?_, by decide, by decide⟩
  · simp [isCommitted]
  · simp [isOrphaned]

/-! ## Conflict DAG acceptance state (conflictdagv1, AcceptanceState) -/

/-- Acceptance state of a conflict. -/
inductive AccState where
  | pending : AccState
  | accepted : AccState
  | rejected : AccState
deriving DecidableEq

/-- Lookup in conflictsByID, keeping only the acceptance state of the
conflict, which is all AcceptanceState reads. -/
def lookupAcceptance (conflicts : List (Nat × AccState)) (id : Nat) : Option AccState :=
  (conflicts.find? (fun e => e.1 == id)).map (·.2)

/-- Loop body of AcceptanceState: the running lowest observed state starts at
accepted; a missing conflict is a fatal error (modelled as none), a rejected
conflict short-circuits with rejected, a pending conflict lowers the running
state to pending. -/
def acceptanceStateGo (conflicts : List (Nat × AccState)) :
    List Nat → AccState → Option AccState
  | [], lowest => some lowest
  | id :: rest, lowest =>
    match lookupAcceptance conflicts id with
    | none => none
    | some AccState.rejected => some AccState.rejected
    | some AccState.pending => acceptanceStateGo conflicts rest AccState.pending
    | some AccState.accepted => acceptanceStateGo conflicts rest lowest

/-- AcceptanceState of a set of conflict ids. -/
def acceptanceState (conflicts : List (Nat × AccState)) (ids : List Nat) : Option AccState :=
  acceptanceStateGo conflicts ids AccState.accepted

theorem acceptanceStateGo_spec (conflicts : List (Nat × AccState)) (ids : List Nat)
    (lowest : AccState) (hl : lowest ≠ AccState.rejected)
    (h : ∀ id ∈ ids, (lookupAcceptance conflicts id).isSome = true) :
    acceptanceStateGo conflicts ids lowest =
      some (if ids.any (fun id => lookupAcceptance conflicts id == some AccState.rejected) then
        AccState.rejected
      else if ids.any (fun id => lookupAcceptance conflicts id == some AccState.pending) then
        AccState.pending
      else lowest) := by
  induction ids generalizing lowest with
  | nil => simp [acceptanceStateGo]
  | cons id rest ih =>
    have hid := h id (List.mem_cons_self id rest)
    have hrest : ∀ i ∈ rest, (lookupAcceptance conflicts i).isSome = true :=
      fun i hi => h i (List.mem_cons_of_mem id hi)
    obtain ⟨st, hst⟩ := Option.isSome_iff_exists.mp hid
    cases st with
    | rejected => simp [acceptanceStateGo, hst]
    | pending =>
      rw [acceptanceStateGo, hst]
      rw [ih AccState.pending (by simp) hrest]
      simp only [List.any_cons, hst]
      cases hr : rest.any (fun i => lookupAcceptance conflicts i == some AccState.rejected) <;>
        simp [hr]
    | accepted =>
      rw [acceptanceStateGo, hst]
      rw [ih lowest hl hrest]
      simp [hst]

/-- Claim C4: when every member of the set exists in the DAG, AcceptanceState
returns rejected as soon as any member is rejected, otherwise pending when
any member is pending, otherwise accepted; the empty set yields accepted. -/
theorem c4_acceptance_state (conflicts : List (Nat × AccState)) (ids : List Nat)
    (h : ∀ id ∈ ids, (lookupAcceptance conflicts id).isSome = true) :
    acceptanceState conflicts ids =
      some (if ids.any (fun id => lookupAcceptance conflicts id == some AccState.rejected) then
        AccState.rejected
      else if ids.any (fun id => lookupAcceptance conflicts id == some AccState.pending) then
        AccState.pending
      else AccState.accepted) :=
  acceptanceStateGo_spec conflicts ids AccState.accepted (by simp) h

theorem c4_witness :
    acceptanceState [(1, AccState.accepted), (2, AccState.pending)] [1, 2] =
      some AccState.pending :=
  by
    have h := c4_acceptance_state [(1, AccState.accepted), (2, AccState.pending)] [1, 2]
      (by decide)
    rw [h]
    decide

/-! ## Slot notarization (slotnotarization/manager.go) and the ledger slot
commit (ledger/ledger.go) -/

/-- Commitment identifier: the hash of the commitment fields.  Hashing is
modelled by a constructor over the hashed fields, which is injective exactly
as a collision-free hash is treated. -/
inductive CommitmentID where
  | snapshotID : CommitmentID
  | hashOf (index : Nat) (prevID : CommitmentID) (rootsID : Nat)
      (cumulativeWeight : Nat) : CommitmentID
deriving DecidableEq

/-- Commitment as built by iotago.NewCommitment inside createCommitment:
slot index, identifier of the previous commitment, identifier of the roots,
and cumulative weight. -/
structure ModelCommitment where
  index : Nat
  prevID : CommitmentID
  rootsID : Nat
  cumulativeWeight : Nat
deriving DecidableEq

/-- Identifier of a commitment. -/
def commitmentID (c : ModelCommitment) : CommitmentID :=
  CommitmentID.hashOf c.index c.prevID c.rootsID c.cumulativeWeight

/-- Gap check at the top of Ledger.CommitSlot: a requested index other than
ledgerIndex + 1 is a fatal gap in the ledger state (the Go code panics,
modelled as none); otherwise the ledger index advances to the committed
index. -/
def ledgerCommitSlot (ledgerIndex index : Nat) : Option Nat :=
  if index = ledgerIndex + 1 then some index else none

/-- Modelled from the spec: the Commit operation of the attestation manager
is not among the available sources (only its Import and Export live in the
sources); section 4.8 of the spec has it return the cumulative weight delta
of the slot and section 4.9 forms the new cumulative weight as the latest
cumulative weight plus that delta. -/
def attestationCommit (latestCumulativeWeight delta : Nat) : Nat :=
  latestCumulativeWeight + delta

/-- State of the notarization manager that createCommitment touches: the
latest commitment from the settings storage and the ledger index of the
UTXO ledger. -/
structure NotarState where
  latest : ModelCommitment
  ledgerIndex : Nat
deriving DecidableEq

/-- Manager.createCommitment: fails unless the requested index is the
latest commitment index plus one, asks the attestation manager for the
cumulative weight, commits the ledger slot (failing on a ledger gap), and
builds the new commitment with the identifier of the latest commitment as
its previous identifier.  The roots identifier summarising the five roots is
abstracted as an input. -/
def createCommitment (st : NotarState) (index delta rootsID : Nat) :
    Option (ModelCommitment × NotarState) :=
  if index ≠ st.latest.index + 1 then none
  else
    match ledgerCommitSlot st.ledgerIndex index with
    | none => none
    | some newLedgerIndex =>
      let c : ModelCommitment :=
        { index := index, prevID := commitmentID st.latest, rootsID := rootsID,
          cumulativeWeight := attestationCommit st.latest.cumulativeWeight delta }
      some (c, { latest := c, ledgerIndex := newLedgerIndex })

/-- Runs a sequence of createCommitment calls; each step carries the
requested index, the attestation weight delta and the roots identifier.  A
failing call emits nothing and leaves the state unchanged (the manager logs
the error and returns false). -/
def runNotarization (st : NotarState) : List (Nat × Nat × Nat) → List ModelCommitment
  | [] => []
  | step :: rest =>
    match createCommitment st step.1 step.2.1 step.2.2 with
    | none => runNotarization st rest
    | some (c, st') => c :: runNotarization st' rest

/-- Commitment loaded from the snapshot at engine start, rooting the chain at
slot 0. -/
def snapshotCommitment : ModelCommitment :=
  { index := 0, prevID := CommitmentID.snapshotID, rootsID := 0, cumulativeWeight := 0 }

/-- Initial manager state: the snapshot commitment is the latest one and the
ledger index equals its slot. -/
def initNotarState : NotarState :=
  { latest := snapshotCommitment, ledgerIndex := 0 }

/-- Chain of commitments observed for a sequence of createCommitment calls,
rooted at the snapshot commitment. -/
def commitmentChain (steps : List (Nat × Nat × Nat)) : List ModelCommitment :=
  snapshotCommitment :: runNotarization initNotarState steps

/-- Chain invariant between a previous commitment and the commitments that
follow it: each one references the identifier of its predecessor, increments
the slot index, and does not decrease the cumulative weight. -/
def chainOK : ModelCommitment → List ModelCommitment → Prop
  | _, [] => True
  | prev, c :: rest =>
    c.prevID = commitmentID prev ∧ c.index = prev.index + 1 ∧
      prev.cumulativeWeight ≤ c.cumulativeWeight ∧ chainOK c rest

theorem createCommitment_some (st : NotarState) (index delta rootsID : Nat)
    (c : ModelCommitment) (st' : NotarState)
    (h : createCommitment st index delta rootsID = some (c, st')) :
    index = st.latest.index + 1 ∧ index = st.ledgerIndex + 1 ∧
    c = { index := index, prevID := commitmentID st.latest, rootsID := rootsID,
          cumulativeWeight := st.latest.cumulativeWeight + delta } ∧
    st' = { latest := c, ledgerIndex := index } := by
  unfold createCommitment at h
  by_cases hidx : index ≠ st.latest.index + 1
  · simp [hidx] at h
  · rw [if_neg hidx] at h
    unfold ledgerCommitSlot at h
    by_cases hgap : index = st.ledgerIndex + 1
    · rw [if_pos hgap] at h
      simp only [Option.some.injEq, Prod.mk.injEq] at h
      exact ⟨by omega, hgap, h.1.symm, by rw [← h.1, ← h.2]⟩
    · rw [if_neg hgap] at h
      simp at h

theorem runNotarization_chainOK (steps : List (Nat × Nat × Nat)) :
    ∀ st : NotarState, st.ledgerIndex = st.latest.index →
      chainOK st.latest (runNotarization st steps) := by
  induction steps with
  | nil => intro st _; trivial
  | cons step rest ih =>
    intro st hli
    cases hc : createCommitment st step.1 step.2.1 step.2.2 with
    | none =>
      simp only [runNotarization, hc]
      exact ih st hli
    | some p =>
      obtain ⟨c, st'⟩ := p
      simp only [runNotarization, hc]
      obtain ⟨hidx, hgap, hcdef, hstdef⟩ :=
        createCommitment_some st step.1 step.2.1 step.2.2 c st' hc
      refine ⟨by rw [hcdef], by rw [hcdef]; exact hidx, by rw [hcdef]; simp, ?_⟩
      have hlatest : st'.latest = c := by rw [hstdef]
      have hledger : st'.ledgerIndex = c.index := by rw [hstdef, hcdef]
      rw [← hlatest]
      exact ih st' (by rw [hledger, hlatest])

theorem chainOK_get? (l : List ModelCommitment) :
    ∀ (prev : ModelCommitment), chainOK prev l →
      ∀ (i : Nat) (ci cj : ModelCommitment),
        (prev :: l).get? i = some ci → (prev :: l).get? (i + 1) = some cj →
        cj.prevID = commitmentID ci ∧ cj.index = prev.index + (i + 1) ∧
          ci.cumulativeWeight ≤ cj.cumulativeWeight := by
  induction l with
  | nil =>
    intro prev _ i ci cj _ hj
    rcases i <;> simp at hj
  | cons c rest ih =>
    intro prev h i ci cj hi hj
    match i with
    | 0 =>
      simp only [List.get?] at hi hj
      obtain rfl : prev = ci := by injection hi
      obtain rfl : c = cj := by injection hj
      exact ⟨h.1, h.2.1, h.2.2.1⟩
    | Nat.succ j =>
      have hi' : (c :: rest).get? j = some ci := hi
      have hj' : (c :: rest).get? (j + 1) = some cj := hj
      obtain ⟨h1, h2, h3⟩ := ih c h.2.2.2 j ci cj hi' hj'
      have hc : c.index = prev.index + 1 := h.2.1
      exact ⟨h1, by omega, h3⟩

/-- Claim C1: along the commitment chain produced by any sequence of
createCommitment calls, every commitment references the identifier of its
predecessor, carries slot index i at chain position i (so commitments come
in strictly increasing slot order and no slot is committed twice), and the
cumulative weight never decreases; moreover createCommitment succeeds only
when the requested index is the latest commitment index plus one, and the
gap check of Ledger.CommitSlot fails exactly on an index other than
ledgerIndex + 1. -/
theorem c1_commitment_chain (steps : List (Nat × Nat × Nat)) (i : Nat)
    (ci cj : ModelCommitment)
    (hi : (commitmentChain steps).get? i = some ci)
    (hj : (commitmentChain steps).get? (i + 1) = some cj) :
    (cj.prevID = commitmentID ci ∧ cj.index = i + 1 ∧
      ci.cumulativeWeight ≤ cj.cumulativeWeight) ∧
    (∀ st index delta rootsID,
      (createCommitment st index delta rootsID).isSome = true →
        index = st.latest.index + 1) ∧
    (∀ ledgerIndex index,
      ledgerCommitSlot ledgerIndex index = none ↔ index ≠ ledgerIndex + 1) := by
  refine ⟨?_, ?_, ?_⟩
  · have hok : chainOK snapshotCommitment (runNotarization initNotarState steps) :=
      runNotarization_chainOK steps initNotarState rfl
    have := chainOK_get? (runNotarization initNotarState steps) snapshotCommitment hok
      i ci cj hi hj
    exact ⟨this.1, by have := this.2.1; simp [snapshotCommitment] at this; omega, this.2.2⟩
  · intro st index delta rootsID h
    unfold createCommitment at h
    by_cases hidx : index ≠ st.latest.index + 1
    · simp [hidx] at h
    · omega
  · intro ledgerIndex index
    unfold ledgerCommitSlot
    by_cases hgap : index = ledgerIndex + 1 <;> simp [hgap]

theorem c1_witness :
    ∃ cj : ModelCommitment,
      (commitmentChain [(1, 5, 7), (2, 2, 9)]).get? 1 = some cj ∧
      cj.prevID = commitmentID snapshotCommitment ∧ cj.index = 1 := by
  have h := c1_commitment_chain [(1, 5, 7), (2, 2, 9)] 0 snapshotCommitment
    { index := 1, prevID := commitmentID snapshotCommitment, rootsID := 7,
      cumulativeWeight := 5 }
    (by decide) (by decide)
  exact ⟨_, by decide, h.1.1, h.1.2.1⟩

/-- Manager.isCommittable: a slot is committable when the accepted index has
reached the minimum committable age and the slot index is strictly below the
accepted index minus that age.  The explicit guard makes the unsigned Go
subtraction exact, so Nat subtraction is faithful here. -/
def isCommittable (minAge index acceptedBlockIndex : Nat) : Bool :=
  if acceptedBlockIndex < minAge then false
  else decide (index < acceptedBlockIndex - minAge)

/-- Loop body of Manager.tryCommitSlotUntil: starting at the slot after the
latest commitment, while the slot is at most the accepted index and
committable, createCommitment is attempted; a failed attempt ends the loop.
The returned list holds the slots for which sealing was attempted.  The fuel
argument bounds the iteration count and is always sufficient at the entry
point below. -/
def commitLoopF (minAge : Nat) (createOK : Nat → Bool) (acceptedBlockIndex : Nat) :
    Nat → Nat → List Nat
  | 0, _ => []
  | fuel + 1, i =>
    if acceptedBlockIndex < i then []
    else if isCommittable minAge i acceptedBlockIndex then
      (if createOK i then i :: commitLoopF minAge createOK acceptedBlockIndex fuel (i + 1)
       else [i])
    else []

/-- Manager.tryCommitSlotUntil: seals slots starting right after the latest
committed index, up to the accepted block index, while committable. -/
def tryCommitSlotUntil (minAge : Nat) (createOK : Nat → Bool)
    (latestCommittedIndex acceptedBlockIndex : Nat) : List Nat :=
  commitLoopF minAge createOK acceptedBlockIndex (acceptedBlockIndex + 1)
    (latestCommittedIndex + 1)

theorem isCommittable_iff (minAge i acceptedBlockIndex : Nat) :
    isCommittable minAge i acceptedBlockIndex = true ↔ i + minAge < acceptedBlockIndex := by
  unfold isCommittable
  split
  · simp; omega
  · simp; omega

theorem commitLoopF_range (minAge acceptedBlockIndex : Nat) :
    ∀ fuel i, acceptedBlockIndex + 1 - i ≤ fuel →
      commitLoopF minAge (fun _ => true) acceptedBlockIndex fuel i =
        List.range' i (acceptedBlockIndex - minAge - i) := by
  intro fuel
  induction fuel with
  | zero =>
    intro i h
    have hlen : acceptedBlockIndex - minAge - i = 0 := by omega
    simp [commitLoopF, hlen]
  | succ fuel ih =>
    intro i h
    rw [commitLoopF]
    by_cases h1 : acceptedBlockIndex < i
    · have hlen : acceptedBlockIndex - minAge - i = 0 := by omega
      simp [h1, hlen]
    · by_cases h2 : isCommittable minAge i acceptedBlockIndex = true
      · have hstrict := (isCommittable_iff minAge i acceptedBlockIndex).mp h2
        have hlen : acceptedBlockIndex - minAge - i =
            (acceptedBlockIndex - minAge - (i + 1)) + 1 := by omega
        rw [if_neg h1, if_pos h2, if_pos rfl, ih (i + 1) (by omega), hlen,
          List.range'_succ]
      · have hlen : acceptedBlockIndex - minAge - i = 0 := by
          have := (isCommittable_iff minAge i acceptedBlockIndex).not.mp (by simp [h2])
          omega
        simp [h1, h2, hlen]

/-- Claim C2 counterexample: with the default minimum committable age 6 and
ratified accepted index 7, slot 1 satisfies 1 + 6 less or equal 7, so by the
claim it is committable and the range from 1 to 7 minus 6 contains it; the
code reports it not committable and attempts no slot at all. -/
theorem c2_counterexample :
    isCommittable 6 1 7 = false ∧ 1 + 6 ≤ 7 ∧
    tryCommitSlotUntil 6 (fun _ => true) 0 7 = [] := by
  decide

/-- Claim C2 as amended: a slot s is committable exactly when
s + min_commit_age is strictly below the ratified accepted index A, and
(when every createCommitment succeeds) the manager attempts to seal exactly
the slots from latest_committed + 1 up to A − min_commit_age − 1 in
increasing order. -/
theorem c2_committable_window (minAge s latestCommittedIndex acceptedBlockIndex : Nat) :
    (isCommittable minAge s acceptedBlockIndex = true ↔
      s + minAge < acceptedBlockIndex) ∧
    tryCommitSlotUntil minAge (fun _ => true) latestCommittedIndex acceptedBlockIndex =
      List.range' (latestCommittedIndex + 1)
        (acceptedBlockIndex - minAge - (latestCommittedIndex + 1)) :=
  ⟨isCommittable_iff minAge s acceptedBlockIndex,
    commitLoopF_range minAge acceptedBlockIndex (acceptedBlockIndex + 1)
      (latestCommittedIndex + 1) (by omega)⟩

/-! ## Allotment processing during slot commit (ledger/ledger.go,
processStateDiffTransactions) -/

/-- Slice of the account data read by the allotment loop: the output
identifier of the account and the update time of its credits. -/
structure AccountData where
  outputID : Nat
  creditsUpdateTime : Nat
deriving DecidableEq

/-- Account diff as initialised by prunable.NewAccountDiff, restricted to the
fields the allotment loop writes; the zero output identifier stands for the
empty OutputID. -/
structure AccountDiff where
  bicChange : Int
  previousUpdatedTime : Nat
  newOutputID : Nat
  previousOutputID : Nat
deriving DecidableEq

/-- Default diff of prunable.NewAccountDiff: all fields zero. -/
def emptyAccountDiff : AccountDiff :=
  { bicChange := 0, previousUpdatedTime := 0, newOutputID := 0, previousOutputID := 0 }

/-- Lookup in the accountDiffs map, represented as an association list. -/
def lookupDiff : List (Nat × AccountDiff) → Nat → Option AccountDiff
  | [], _ => none
  | e :: rest, accountID => if e.1 = accountID then some e.2 else lookupDiff rest accountID

/-- getAccountDiff from ledger.go: returns the existing diff, or initialises
a fresh default diff in the map when none exists. -/
def getAccountDiff (m : List (Nat × AccountDiff)) (accountID : Nat) :
    AccountDiff × List (Nat × AccountDiff) :=
  match lookupDiff m accountID with
  | some d => (d, m)
  | none => (emptyAccountDiff, m ++ [(accountID, emptyAccountDiff)])

/-- Replaces the diff stored for an account (the Go code mutates the diff
through the pointer held in the map). -/
def setDiff (m : List (Nat × AccountDiff)) (accountID : Nat) (d : AccountDiff) :
    List (Nat × AccountDiff) :=
  m.map (fun e => if e.1 == accountID then (accountID, d) else e)

/-- Allotment loop of Ledger.processStateDiffTransactions: for each allotment
the diff is fetched (creating a default entry when missing), the account is
looked up in the accounts ledger as of the previous slot, and when the
account does not exist the allotment is skipped so that the allotted mana is
burned; otherwise the credit change and the output identifiers are recorded.
The accounts function is the accounts ledger view at the previous slot. -/
def processAllotments (accounts : Nat → Option AccountData) :
    List (Nat × Nat) → List (Nat × AccountDiff) → List (Nat × AccountDiff)
  | [], m => m
  | (accountID, value) :: rest, m =>
    let fetched := getAccountDiff m accountID
    match accounts accountID with
    | none => processAllotments accounts rest fetched.2
    | some acc =>
      let d := fetched.1
      let updated : AccountDiff :=
        { bicChange := d.bicChange + value,
          previousUpdatedTime := acc.creditsUpdateTime,
          newOutputID := acc.outputID,
          previousOutputID := acc.outputID }
      processAllotments accounts rest (setDiff fetched.2 accountID updated)

theorem lookupDiff_append_ne (m : List (Nat × AccountDiff)) (a b : Nat)
    (d : AccountDiff) (hne : a ≠ b) :
    lookupDiff (m ++ [(a, d)]) b = lookupDiff m b := by
  induction m with
  | nil => simp [lookupDiff, hne]
  | cons e rest ih =>
    by_cases he : e.1 = b
    · simp [lookupDiff, he]
    · simp only [List.cons_append, lookupDiff, he, if_false]
      exact ih

theorem lookupDiff_append_self (m : List (Nat × AccountDiff)) (a : Nat)
    (d : AccountDiff) (hnone : lookupDiff m a = none) :
    lookupDiff (m ++ [(a, d)]) a = some d := by
  induction m with
  | nil => simp [lookupDiff]
  | cons e rest ih =>
    by_cases he : e.1 = a
    · simp [lookupDiff, he] at hnone
    · simp only [lookupDiff, he, if_false] at hnone
      simp only [List.cons_append, lookupDiff, he, if_false]
      exact ih hnone

theorem lookupDiff_setDiff_ne (m : List (Nat × AccountDiff)) (a b : Nat)
    (d : AccountDiff) (hne : a ≠ b) :
    lookupDiff (setDiff m a d) b = lookupDiff m b := by
  induction m with
  | nil => rfl
  | cons e rest ih =>
    by_cases he : e.1 = a
    · have hhead : setDiff (e :: rest) a d = (a, d) :: setDiff rest a d := by
        simp [setDiff, he]
      have heb : ¬ e.1 = b := by rw [he]; exact hne
      rw [hhead]
      simp [lookupDiff, hne, heb, ih]
    · have hhead : setDiff (e :: rest) a d = e :: setDiff rest a d := by
        simp [setDiff, he]
      rw [hhead]
      simp [lookupDiff, ih]

theorem processAllotments_missing (accounts : Nat → Option AccountData)
    (allotments : List (Nat × Nat)) (accountID : Nat)
    (hmiss : accounts accountID = none) :
    ∀ m : List (Nat × AccountDiff),
      lookupDiff m accountID = none ∨ lookupDiff m accountID = some emptyAccountDiff →
      lookupDiff (processAllotments accounts allotments m) accountID =
        (if lookupDiff m accountID = some emptyAccountDiff ∨
            allotments.any (fun al => al.1 == accountID) then
          some emptyAccountDiff
        else none) := by
  induction allotments with
  | nil =>
    intro m hm
    rcases hm with hm | hm <;> simp [processAllotments, hm]
  | cons al rest ih =>
    intro m hm
    obtain ⟨a, v⟩ := al
    by_cases ha : a = accountID
    · subst ha
      rw [processAllotments]
      simp only [hmiss]
      have hfetched : lookupDiff (getAccountDiff m a).2 a = some emptyAccountDiff := by
        rcases hm with hm | hm
        · unfold getAccountDiff
          rw [hm]
          exact lookupDiff_append_self m a emptyAccountDiff hm
        · unfold getAccountDiff
          rw [hm]
          exact hm
      rw [ih (getAccountDiff m a).2 (Or.inr hfetched)]
      simp [hfetched]
    · rw [processAllotments]
      have hget : lookupDiff (getAccountDiff m a).2 accountID = lookupDiff m accountID := by
        unfold getAccountDiff
        cases hl : lookupDiff m a with
        | some d => simp
        | none => exact lookupDiff_append_ne m a accountID emptyAccountDiff ha
      have hb : (a == accountID) = false := by simpa using ha
      cases hacc : accounts a with
      | none =>
        rw [ih _ (by rw [hget]; exact hm)]
        rw [hget]
        simp only [List.any_cons, hb, Bool.false_or]
      | some acc =>
        rw [ih _ (by rw [lookupDiff_setDiff_ne _ a accountID _ ha, hget]; exact hm)]
        rw [lookupDiff_setDiff_ne _ a accountID _ ha, hget]
        simp only [List.any_cons, hb, Bool.false_or]

/-- Claim C9 counterexample: committing a state diff with a single allotment
of value 5 to account 7, which does not exist in the accounts ledger, leaves
a freshly created default diff entry for account 7 in the accountDiffs map,
contradicting the claim that no account diff entry is created for such an
allotment (the lookup in getAccountDiff runs before the existence check). -/
theorem c9_counterexample :
    processAllotments (fun _ => none) [(7, 5)] [] = [(7, emptyAccountDiff)] ∧
    processAllotments (fun _ => none) [(7, 5)] [] ≠ [] := by
  constructor
  · rfl
  · intro h
    simp [processAllotments, getAccountDiff, lookupDiff] at h

/-- Claim C9 as amended: an allotment whose target account does not exist in
the accounts ledger as of the previous slot is skipped after the diff lookup,
so a default-initialised diff entry (zero credit change, empty output
identifiers) is created for the account but never populated: the allotted
mana is burned rather than credited, and the allotment loop of CommitSlot
completes without error. -/
theorem c9_allotment_burn (accounts : Nat → Option AccountData)
    (allotments : List (Nat × Nat)) (accountID : Nat)
    (hmiss : accounts accountID = none) :
    lookupDiff (processAllotments accounts allotments []) accountID =
      (if allotments.any (fun al => al.1 == accountID) then some emptyAccountDiff
       else none) := by
  have h := processAllotments_missing accounts allotments accountID hmiss []
    (Or.inl rfl)
  rw [h]
  by_cases hany : (allotments.any fun al => al.1 == accountID) = true
  · rw [if_pos (Or.inr hany), if_pos hany]
  · have hcond : ¬ (lookupDiff ([] : List (Nat × AccountDiff)) accountID
        = some emptyAccountDiff ∨ (allotments.any fun al => al.1 == accountID) = true) := by
      rintro (hx | hx)
      · simp [lookupDiff] at hx
      · exact hany hx
    rw [if_neg hcond, if_neg hany]

theorem c9_witness :
    lookupDiff (processAllotments (fun _ => none) [(7, 5)] []) 7 =
      some emptyAccountDiff := by
  have h := c9_allotment_burn (fun _ => none) [(7, 5)] 7 rfl
  rw [h]
  decide

/-! ## Attestation export (slotattestation) -/

/-- Modulus of the unsigned 64-bit iotago.SlotIndex. -/
def u64Mod : Nat := 2 ^ 64

/-- Wrapping unsigned 64-bit subtraction, for operands below the modulus. -/
def sub64 (a b : Nat) : Nat := (a + u64Mod - b) % u64Mod

/-- Modelled from the spec: computeAttestationCommitmentOffset of the
attestation manager is not among the available sources (only Import and
Export are); section 4.8 of the spec keeps a sliding window of the last W
slots, so the cutoff below the window is the last committed slot minus the
attestation commitment offset W, invalid while fewer than W slots have been
committed. -/
def computeAttestationCommitmentOffset (w lastCommittedSlot : Nat) : Option Nat :=
  if lastCommittedSlot < w then none else some (lastCommittedSlot - w)

/-- Serialized form of an attestation export: the written slot count followed
by the per-slot entries, each a slot index with its attestation collection
(attestations are opaque and modelled as Nat). -/
structure AttExport where
  slotCount : Nat
  entries : List (Nat × List Nat)
deriving DecidableEq

/-- Manager.Export from the slotattestation sources: errors (none) when the
target is newer than the last committed slot, writes a zero count while the
window is invalid, and otherwise writes the count targetSlot − start + 1 and
streams the slots from start to targetSlot, reading slots below the cutoff
from per-slot storage and the rest from the in-memory tracker.  The start is
lo.Max(targetSlot − attestationCommitmentOffset, 0) computed on the unsigned
SlotIndex, so the subtraction wraps and the Max never clamps. -/
def attExport (w lastCommittedSlot : Nat) (storageAtts trackerAtts : Nat → List Nat)
    (targetSlot : Nat) : Option AttExport :=
  if lastCommittedSlot < targetSlot then none
  else
    match computeAttestationCommitmentOffset w lastCommittedSlot with
    | none => some { slotCount := 0, entries := [] }
    | some attestationSlotIndex =>
      let start := max (sub64 targetSlot w) 0
      let slotCount := (sub64 targetSlot start + 1) % u64Mod
      let entries := (List.range' start (targetSlot + 1 - start)).map
        (fun i => (i, if i < attestationSlotIndex then storageAtts i else trackerAtts i))
      some { slotCount := slotCount, entries := entries }

/-- Export format as the claim states it: slot count followed by one entry
for each slot from max(targetSlot − W, 0) up to targetSlot in ascending
order, slots below the window cutoff read from storage and the rest from the
tracker (Nat subtraction realises the saturating max). -/
def attExportClaimed (w lastCommittedSlot : Nat)
    (storageAtts trackerAtts : Nat → List Nat) (targetSlot : Nat) : Option AttExport :=
  if lastCommittedSlot < targetSlot then none
  else
    let start := targetSlot - w
    some { slotCount := targetSlot - start + 1,
           entries := (List.range' start (targetSlot + 1 - start)).map
             (fun i => (i, if i < lastCommittedSlot - w then storageAtts i
                        else trackerAtts i)) }

/-- Claim C6: with attestation window W = 2 and last committed slot 5, the
export behaves as claimed at target 5 (slots 3, 4 and 5, the first below the
cutoff served from storage at target 3) and errors at target 6; but at
target 1 the unsigned subtraction targetSlot − W wraps around, so the code
writes slot count 3 with no slot entries, where the claim promises the slots
max(1 − 2, 0) = 0 and 1 with count 2. -/
theorem c6_export_underflow :
    attExport 2 5 (fun i => [100 + i]) (fun i => [200 + i]) 1 =
      some { slotCount := 3, entries := [] } ∧
    attExportClaimed 2 5 (fun i => [100 + i]) (fun i => [200 + i]) 1 =
      some { slotCount := 2, entries := [(0, [100]), (1, [101])] } ∧
    attExport 2 5 (fun i => [100 + i]) (fun i => [200 + i]) 5 =
      some { slotCount := 3, entries := [(3, [203]), (4, [204]), (5, [205])] } ∧
    attExport 2 5 (fun i => [100 + i]) (fun i => [200 + i]) 3 =
      some { slotCount := 3, entries := [(1, [101]), (2, [102]), (3, [203])] } ∧
    attExport 2 5 (fun i => [100 + i]) (fun i => [200 + i]) 6 = none := by
  decide

/-! ## Conflict DAG vote casting (conflictdagv1, CastVotes and determineVotes)

The walk below is translated from the ConflictDAG sources.  The Conflict
object itself (its parents, children and conflicting conflicts) lives in a
file that is not among the sources, so the node shape is modelled from the
data model of the spec: parents and children form a doubly linked relation
and the conflicting conflicts are derived from shared conflict sets, hence
symmetric.  Both facts are stated as the decidable wellFormed predicate and
assumed, never built in. -/

/-- Modelled from the spec: a conflict node with its parents, children and
conflicting conflicts (the Conflict object file is not among the sources). -/
structure ConflictNode where
  parents : List Nat
  children : List Nat
  conflicting : List Nat
deriving DecidableEq

/-- Conflict storage: conflictsByID as an association list. -/
structure ConflictGraph where
  nodes : List (Nat × ConflictNode)
deriving DecidableEq

/-- Lookup in conflictsByID. -/
def findNode (g : ConflictGraph) (id : Nat) : Option ConflictNode :=
  (g.nodes.find? (fun e => e.1 == id)).map (·.2)

/-- Parents of a conflict (empty for an evicted conflict). -/
def parentsOf (g : ConflictGraph) (id : Nat) : List Nat :=
  ((findNode g id).map (·.parents)).getD []

/-- Children of a conflict (empty for an evicted conflict). -/
def childrenOf (g : ConflictGraph) (id : Nat) : List Nat :=
  ((findNode g id).map (·.children)).getD []

/-- Conflicting conflicts of a conflict (empty for an evicted conflict). -/
def conflictingOf (g : ConflictGraph) (id : Nat) : List Nat :=
  ((findNode g id).map (·.conflicting)).getD []

/-- Existence check on conflictsByID. -/
def memConflict (g : ConflictGraph) (id : Nat) : Bool :=
  (findNode g id).isSome

/-- Well-formedness from the data model of the spec: the conflicting
relation is symmetric (it is derived from shared conflict sets) and every
child edge has the matching parent edge. -/
def wellFormed (g : ConflictGraph) : Bool :=
  g.nodes.all (fun e =>
    e.2.conflicting.all (fun a => decide (e.1 ∈ conflictingOf g a)) &&
    e.2.children.all (fun a => decide (e.1 ∈ parentsOf g a)))

theorem wellFormed_conf_symm (g : ConflictGraph) (h : wellFormed g = true) :
    ∀ a b, a ∈ conflictingOf g b → b ∈ conflictingOf g a := by
  intro a b hab
  unfold conflictingOf findNode at hab
  cases hfind : g.nodes.find? (fun e => e.1 == b) with
  | none =>
    rw [hfind] at hab
    exact absurd hab (List.not_mem_nil a)
  | some e =>
    rw [hfind] at hab
    replace hab : a ∈ e.2.conflicting := hab
    have hmem : e ∈ g.nodes := List.mem_of_find?_eq_some hfind
    have hkey : e.1 = b := by simpa using List.find?_some hfind
    have hall := List.all_eq_true.mp h e hmem
    rw [Bool.and_eq_true] at hall
    have := List.all_eq_true.mp hall.1 a hab
    rw [decide_eq_true_iff] at this
    rwa [hkey] at this

theorem wellFormed_children_parents (g : ConflictGraph) (h : wellFormed g = true) :
    ∀ a b, a ∈ childrenOf g b → b ∈ parentsOf g a := by
  intro a b hab
  unfold childrenOf findNode at hab
  cases hfind : g.nodes.find? (fun e => e.1 == b) with
  | none =>
    rw [hfind] at hab
    exact absurd hab (List.not_mem_nil a)
  | some e =>
    rw [hfind] at hab
    replace hab : a ∈ e.2.children := hab
    have hmem : e ∈ g.nodes := List.mem_of_find?_eq_some hfind
    have hkey : e.1 = b := by simpa using List.find?_some hfind
    have hall := List.all_eq_true.mp h e hmem
    rw [Bool.and_eq_true] at hall
    have := List.all_eq_true.mp hall.2 a hab
    rw [decide_eq_true_iff] at this
    rwa [hkey] at this

/-- State of one determineVotes call: the queue of the supported walker, the
collected supported and revoked conflicts (insertion ordered), and the queue
of the revoked walker. -/
structure VoteState where
  queue : List Nat
  supported : List Nat
  revoked : List Nat
  revQueue : List Nat
deriving DecidableEq

/-- Errors of the vote walk: the conflicting-votes error of determineVotes,
and fuel exhaustion of the bounded model (never hit with enough fuel). -/
inductive VoteError where
  | conflictingVotes : VoteError
  | outOfFuel : VoteError
deriving DecidableEq

/-- revokeConflict closure inside determineVotes: a newly revoked conflict
that is already supported raises the conflicting-votes error, otherwise its
children are pushed onto the revoked walker.  (The Go code adds to the set
first and then checks; checking first is observably the same since the state
is dropped on error.) -/
def revokeConflict (g : ConflictGraph) (r : Nat) (st : VoteState) :
    Except VoteError VoteState :=
  if r ∈ st.revoked then Except.ok st
  else if r ∈ st.supported then Except.error VoteError.conflictingVotes
  else Except.ok { st with revoked := st.revoked ++ [r],
                           revQueue := st.revQueue ++ childrenOf g r }

/-- ForEach of revokeConflict over a list of conflicting conflicts, aborting
on the first error. -/
def revokeList (g : ConflictGraph) : List Nat → VoteState → Except VoteError VoteState
  | [], st => Except.ok st
  | r :: rs, st =>
    match revokeConflict g r st with
    | Except.error e => Except.error e
    | Except.ok st' => revokeList g rs st'

/-- supportConflict closure inside determineVotes: a newly supported conflict
revokes all its conflicting conflicts and pushes its parents onto the
supported walker. -/
def supportConflict (g : ConflictGraph) (x : Nat) (st : VoteState) :
    Except VoteError VoteState :=
  if x ∈ st.supported then Except.ok st
  else
    match revokeList g (conflictingOf g x)
        { st with supported := st.supported ++ [x] } with
    | Except.error e => Except.error e
    | Except.ok st' => Except.ok { st' with queue := st'.queue ++ parentsOf g x }

/-- First loop of determineVotes: drain the supported walker (a FIFO
walker). -/
def supportLoop (g : ConflictGraph) : Nat → VoteState → Except VoteError VoteState
  | 0, _ => Except.error VoteError.outOfFuel
  | fuel + 1, st =>
    match st.queue with
    | [] => Except.ok st
    | x :: rest =>
      match supportConflict g x { st with queue := rest } with
      | Except.error e => Except.error e
      | Except.ok st' => supportLoop g fuel st'

/-- Second loop of determineVotes: drain the revoked walker, revoking the
remaining children transitively without a conflicting-votes check. -/
def drainLoop (g : ConflictGraph) : Nat → List Nat → List Nat → Option (List Nat)
  | 0, _, _ => none
  | _ + 1, [], revoked => some revoked
  | fuel + 1, r :: rest, revoked =>
    if r ∈ revoked then drainLoop g fuel rest revoked
    else drainLoop g fuel (rest ++ childrenOf g r) (revoked ++ [r])

/-- determineVotes: seeds the supported walker with the existing conflicts of
the votes (missing ones are ignored), walks supports upward through parents
and revokes downward through the children of each supported conflict's
conflicting conflicts, and returns the supported and revoked collections. -/
def determineVotes (g : ConflictGraph) (fuel : Nat) (conflictIDs : List Nat) :
    Except VoteError (List Nat × List Nat) :=
  match supportLoop g fuel
      { queue := conflictIDs.filter (fun id => memConflict g id),
        supported := [], revoked := [], revQueue := [] } with
  | Except.error e => Except.error e
  | Except.ok st =>
    match drainLoop g fuel st.revQueue st.revoked with
    | none => Except.error VoteError.outOfFuel
    | some revoked => Except.ok (st.supported, revoked)

/-- CastVotes: on success the vote is applied as liked to every supported
conflict and as disliked to every revoked conflict; an error applies
nothing. -/
def castVotes (g : ConflictGraph) (fuel : Nat) (conflictIDs : List Nat) :
    Except VoteError (List (Nat × Bool)) :=
  match determineVotes g fuel conflictIDs with
  | Except.error e => Except.error e
  | Except.ok (supported, revoked) =>
    Except.ok (supported.map (fun c => (c, true)) ++ revoked.map (fun c => (c, false)))

theorem revokeList_ok (g : ConflictGraph) (rs : List Nat) :
    ∀ st st', revokeList g rs st = Except.ok st' →
      st'.supported = st.supported ∧ st'.queue = st.queue ∧
      (∀ x, x ∈ st.revoked → x ∈ st'.revoked) ∧
      (∀ x, x ∈ st'.revoked → x ∈ st.revoked ∨ (x ∈ rs ∧ x ∉ st.supported)) ∧
      (∀ x, x ∈ st'.revQueue →
        x ∈ st.revQueue ∨ ∃ p, p ∈ st'.revoked ∧ x ∈ childrenOf g p) := by
  induction rs with
  | nil =>
    intro st st' h
    obtain rfl : st = st' := Except.ok.inj h
    exact ⟨rfl, rfl, fun x hx => hx, fun x hx => Or.inl hx, fun x hx => Or.inl hx⟩
  | cons r rs ih =>
    intro st st' h
    rw [revokeList] at h
    cases hr : revokeConflict g r st with
    | error e => rw [hr] at h; exact Except.noConfusion h
    | ok st1 =>
      rw [hr] at h
      obtain ⟨h1, h2, h3, h4, h5⟩ := ih st1 st' h
      unfold revokeConflict at hr
      by_cases hrr : r ∈ st.revoked
      · rw [if_pos hrr] at hr
        obtain rfl : st = st1 := Except.ok.inj hr
        refine ⟨h1, h2, h3, ?_, h5⟩
        intro x hx
        rcases h4 x hx with hx1 | ⟨hx1, hx2⟩
        · exact Or.inl hx1
        · exact Or.inr ⟨List.mem_cons_of_mem r hx1, hx2⟩
      · rw [if_neg hrr] at hr
        by_cases hrs : r ∈ st.supported
        · rw [if_pos hrs] at hr; exact Except.noConfusion hr
        · rw [if_neg hrs] at hr
          obtain rfl : ({ st with revoked := st.revoked ++ [r], revQueue := st.revQueue ++ childrenOf g r } : VoteState) = st1 :=
            Except.ok.inj hr
          refine ⟨h1, h2, ?_, ?_, ?_⟩
          · intro x hx
            exact h3 x (List.mem_append_left _ hx)
          · intro x hx
            rcases h4 x hx with hx1 | ⟨hx1, hx2⟩
            · rcases List.mem_append.mp hx1 with hx3 | hx3
              · exact Or.inl hx3
              · have hxr : x = r := by simpa using hx3
                subst hxr
                exact Or.inr ⟨List.mem_cons_self x rs, hrs⟩
            · exact Or.inr ⟨List.mem_cons_of_mem r hx1, hx2⟩
          · intro x hx
            rcases h5 x hx with hx1 | hx1
            · rcases List.mem_append.mp hx1 with hx3 | hx3
              · exact Or.inl hx3
              · refine Or.inr ⟨r, h3 r ?_, hx3⟩
                exact List.mem_append_right _ (List.mem_cons_self r [])
            · exact Or.inr hx1

theorem revokeList_supported_mem (g : ConflictGraph) (rs : List Nat) :
    ∀ st st', revokeList g rs st = Except.ok st' →
      ∀ a, a ∈ rs → a ∈ st.supported → a ∈ st.revoked := by
  induction rs with
  | nil =>
    intro st st' _ a ha _
    exact absurd ha (List.not_mem_nil a)
  | cons r rs ih =>
    intro st st' h a ha hs
    rw [revokeList] at h
    cases hr : revokeConflict g r st with
    | error e => rw [hr] at h; exact Except.noConfusion h
    | ok st1 =>
      rw [hr] at h
      unfold revokeConflict at hr
      by_cases hrr : r ∈ st.revoked
      · rw [if_pos hrr] at hr
        obtain rfl : st = st1 := Except.ok.inj hr
        rcases List.mem_cons.mp ha with rfl | ha1
        · exact hrr
        · exact ih st st' h a ha1 hs
      · rw [if_neg hrr] at hr
        by_cases hrs : r ∈ st.supported
        · rw [if_pos hrs] at hr; exact Except.noConfusion hr
        · rw [if_neg hrs] at hr
          obtain rfl : ({ st with revoked := st.revoked ++ [r], revQueue := st.revQueue ++ childrenOf g r } : VoteState) = st1 :=
            Except.ok.inj hr
          rcases List.mem_cons.mp ha with rfl | ha1
          · exact absurd hs hrs
          · have hmem := ih _ st' h a ha1 hs
            rcases List.mem_append.mp hmem with h3 | h3
            · exact h3
            · have har : a = r := by simpa using h3
              subst har
              exact absurd hs hrs

/-- Running invariant of the support walk: supported and revoked are
disjoint, every revoked conflict has a supported accuser among whose
conflicting conflicts it appears, parents of supported conflicts are
supported or still queued, and the revoked walker holds children of revoked
conflicts. -/
structure SupInv (g : ConflictGraph) (st : VoteState) : Prop where
  disj : ∀ x ∈ st.supported, x ∉ st.revoked
  accused : ∀ x ∈ st.revoked, ∃ a, a ∈ st.supported ∧ x ∈ conflictingOf g a
  closed : ∀ s ∈ st.supported, ∀ p ∈ parentsOf g s, p ∈ st.supported ∨ p ∈ st.queue
  revq : ∀ x ∈ st.revQueue, ∃ p, p ∈ st.revoked ∧ x ∈ childrenOf g p

theorem supportConflict_inv (g : ConflictGraph)
    (hconf : ∀ a b, a ∈ conflictingOf g b → b ∈ conflictingOf g a)
    (x : Nat) (st st' : VoteState)
    (hdisj : ∀ y ∈ st.supported, y ∉ st.revoked)
    (hacc : ∀ y ∈ st.revoked, ∃ a, a ∈ st.supported ∧ y ∈ conflictingOf g a)
    (hclosed : ∀ s ∈ st.supported, ∀ p ∈ parentsOf g s,
        p ∈ st.supported ∨ p = x ∨ p ∈ st.queue)
    (hrevq : ∀ y ∈ st.revQueue, ∃ p, p ∈ st.revoked ∧ y ∈ childrenOf g p)
    (h : supportConflict g x st = Except.ok st') :
    SupInv g st' := by
  unfold supportConflict at h
  by_cases hxs : x ∈ st.supported
  · rw [if_pos hxs] at h
    obtain rfl : st = st' := Except.ok.inj h
    refine ⟨hdisj, hacc, ?_, hrevq⟩
    intro s hs p hp
    rcases hclosed s hs p hp with h1 | h1 | h1
    · exact Or.inl h1
    · exact Or.inl (h1 ▸ hxs)
    · exact Or.inr h1
  · rw [if_neg hxs] at h
    cases hrl : revokeList g (conflictingOf g x)
        { st with supported := st.supported ++ [x] } with
    | error e => rw [hrl] at h; exact Except.noConfusion h
    | ok st2 =>
      rw [hrl] at h
      obtain rfl : ({ st2 with queue := st2.queue ++ parentsOf g x } : VoteState) = st' :=
        Except.ok.inj h
      obtain ⟨hsup, hque, hmono, hfrom, hrevq2⟩ :=
        revokeList_ok g (conflictingOf g x) _ st2 hrl
      have hxnr : x ∉ st.revoked := by
        intro hxr
        obtain ⟨a, has, hac⟩ := hacc x hxr
        have hax : a ∈ conflictingOf g x := hconf x a hac
        have hmem := revokeList_supported_mem g (conflictingOf g x) _ st2 hrl a hax
          (List.mem_append_left _ has)
        exact hdisj a has hmem
      constructor
      · intro y hy hyr
        rw [hsup] at hy
        rcases hfrom y hyr with h1 | ⟨_, h2⟩
        · rcases List.mem_append.mp hy with h3 | h3
          · exact hdisj y h3 h1
          · have hyx : y = x := by simpa using h3
            subst hyx
            exact hxnr h1
        · exact h2 hy
      · intro y hy
        rcases hfrom y hy with h1 | ⟨h1, _⟩
        · obtain ⟨a, has, hac⟩ := hacc y h1
          exact ⟨a, by rw [hsup]; exact List.mem_append_left _ has, hac⟩
        · refine ⟨x, ?_, h1⟩
          rw [hsup]
          exact List.mem_append_right _ (List.mem_cons_self x [])
      · intro s hs p hp
        rw [hsup] at hs
        rcases List.mem_append.mp hs with h1 | h1
        · rcases hclosed s h1 p hp with h2 | h2 | h2
          · exact Or.inl (by rw [hsup]; exact List.mem_append_left _ h2)
          · refine Or.inl ?_
            rw [hsup, h2]
            exact List.mem_append_right _ (List.mem_cons_self x [])
          · refine Or.inr ?_
            rw [hque]
            exact List.mem_append_left _ h2
        · have hsx : s = x := by simpa using h1
          subst hsx
          exact Or.inr (List.mem_append_right _ hp)
      · intro y hy
        rcases hrevq2 y hy with h1 | ⟨p, hp1, hp2⟩
        · obtain ⟨p, hp1, hp2⟩ := hrevq y h1
          exact ⟨p, hmono p hp1, hp2⟩
        · exact ⟨p, hp1, hp2⟩

theorem supportLoop_inv (g : ConflictGraph)
    (hconf : ∀ a b, a ∈ conflictingOf g b → b ∈ conflictingOf g a) :
    ∀ fuel st st', SupInv g st → supportLoop g fuel st = Except.ok st' →
      SupInv g st' ∧ st'.queue = [] := by
  intro fuel
  induction fuel with
  | zero => intro st st' _ h; exact Except.noConfusion h
  | succ fuel ih =>
    intro st st' hinv h
    cases hq : st.queue with
    | nil =>
      simp only [supportLoop, hq] at h
      obtain rfl : st = st' := Except.ok.inj h
      exact ⟨hinv, hq⟩
    | cons x rest =>
      simp only [supportLoop, hq] at h
      cases hsc : supportConflict g x { st with queue := rest } with
      | error e => rw [hsc] at h; exact Except.noConfusion h
      | ok st1 =>
        rw [hsc] at h
        have hinv1 : SupInv g st1 := by
          apply supportConflict_inv g hconf x { st with queue := rest } st1
          · exact fun y hy => hinv.disj y hy
          · exact fun y hy => hinv.accused y hy
          · intro s hs p hp
            rcases hinv.closed s hs p hp with h1 | h1
            · exact Or.inl h1
            · rw [hq] at h1
              rcases List.mem_cons.mp h1 with h2 | h2
              · exact Or.inr (Or.inl h2)
              · exact Or.inr (Or.inr h2)
          · exact fun y hy => hinv.revq y hy
          · exact hsc
        exact ih st1 st' hinv1 h

theorem drainLoop_disj (g : ConflictGraph)
    (hpc : ∀ a b, a ∈ childrenOf g b → b ∈ parentsOf g a)
    (supported : List Nat)
    (hclosed : ∀ s ∈ supported, ∀ p ∈ parentsOf g s, p ∈ supported) :
    ∀ fuel revQueue revoked revoked',
      (∀ y ∈ supported, y ∉ revoked) →
      (∀ y ∈ revQueue, ∃ p, p ∈ revoked ∧ y ∈ childrenOf g p) →
      drainLoop g fuel revQueue revoked = some revoked' →
      ∀ y ∈ supported, y ∉ revoked' := by
  intro fuel
  induction fuel with
  | zero => intro _ _ _ _ _ h; exact Option.noConfusion h
  | succ fuel ih =>
    intro revQueue revoked revoked' hdisj hq h
    cases revQueue with
    | nil =>
      simp only [drainLoop] at h
      obtain rfl : revoked = revoked' := Option.some.inj h
      exact hdisj
    | cons r rest =>
      simp only [drainLoop] at h
      by_cases hrr : r ∈ revoked
      · rw [if_pos hrr] at h
        exact ih rest revoked revoked' hdisj
          (fun y hy => hq y (List.mem_cons_of_mem r hy)) h
      · rw [if_neg hrr] at h
        have hrs : r ∉ supported := by
          intro hrsup
          obtain ⟨p, hp1, hp2⟩ := hq r (List.mem_cons_self r rest)
          have hpp : p ∈ parentsOf g r := hpc r p hp2
          exact hdisj p (hclosed r hrsup p hpp) hp1
        refine ih (rest ++ childrenOf g r) (revoked ++ [r]) revoked' ?_ ?_ h
        · intro y hy hyr
          rcases List.mem_append.mp hyr with h1 | h1
          · exact hdisj y hy h1
          · have hyx : y = r := by simpa using h1
            subst hyx
            exact hrs hy
        · intro y hy
          rcases List.mem_append.mp hy with h1 | h1
          · obtain ⟨p, hp1, hp2⟩ := hq y (List.mem_cons_of_mem r h1)
            exact ⟨p, List.mem_append_left _ hp1, hp2⟩
          · exact ⟨r, List.mem_append_right _ (List.mem_cons_self r []), h1⟩

/-- Claim C3: when the conflict graph is well formed (symmetric conflicting
relation, matching parent and child edges), a CastVotes call that does not
fail never classifies a conflict as both supported and revoked (so the
conflicting-votes error is raised whenever the walk would do so), and on
success the vote is applied as liked to every supported conflict and as
disliked to every revoked conflict. -/
theorem c3_cast_votes (g : ConflictGraph) (hwf : wellFormed g = true)
    (fuel : Nat) (conflictIDs supported revoked : List Nat)
    (h : determineVotes g fuel conflictIDs = Except.ok (supported, revoked)) :
    (∀ x ∈ supported, x ∉ revoked) ∧
    castVotes g fuel conflictIDs =
      Except.ok (supported.map (fun c => (c, true)) ++
        revoked.map (fun c => (c, false))) := by
  have hconf := wellFormed_conf_symm g hwf
  have hpc := wellFormed_children_parents g hwf
  refine ⟨?_, ?_⟩
  · unfold determineVotes at h
    cases hsl : supportLoop g fuel
        { queue := conflictIDs.filter (fun id => memConflict g id),
          supported := [], revoked := [], revQueue := [] } with
    | error e => rw [hsl] at h; exact Except.noConfusion h
    | ok st =>
      rw [hsl] at h
      replace h : (match drainLoop g fuel st.revQueue st.revoked with
          | none => Except.error VoteError.outOfFuel
          | some rev => Except.ok (st.supported, rev)) =
          Except.ok (supported, revoked) := h
      cases hdl : drainLoop g fuel st.revQueue st.revoked with
      | none => rw [hdl] at h; exact Except.noConfusion h
      | some revoked2 =>
        rw [hdl] at h
        have hpair : (st.supported, revoked2) = (supported, revoked) := Except.ok.inj h
        injection hpair with hsup hrev
        have hinit : SupInv g
            { queue := conflictIDs.filter (fun id => memConflict g id),
              supported := [], revoked := [], revQueue := [] } := by
          constructor
          · intro y hy; exact absurd hy (List.not_mem_nil y)
          · intro y hy; exact absurd hy (List.not_mem_nil y)
          · intro s hs; exact absurd hs (List.not_mem_nil s)
          · intro y hy; exact absurd hy (List.not_mem_nil y)
        obtain ⟨hinvst, hqnil⟩ := supportLoop_inv g hconf fuel _ st hinit hsl
        have hclosedfin : ∀ s ∈ st.supported, ∀ p ∈ parentsOf g s, p ∈ st.supported := by
          intro s hs p hp
          rcases hinvst.closed s hs p hp with h1 | h1
          · exact h1
          · rw [hqnil] at h1
            exact absurd h1 (List.not_mem_nil p)
        subst hsup
        subst hrev
        exact drainLoop_disj g hpc st.supported hclosedfin fuel st.revQueue st.revoked
          revoked2 hinvst.disj hinvst.revq hdl
  · unfold castVotes
    rw [h]

theorem c3_witness :
    castVotes
      { nodes := [(1, { parents := [], children := [], conflicting := [2] }),
                  (2, { parents := [], children := [], conflicting := [1] })] }
      4 [1] =
      Except.ok [(1, true), (2, false)] :=
  (c3_cast_votes
    { nodes := [(1, { parents := [], children := [], conflicting := [2] }),
                (2, { parents := [], children := [], conflicting := [1] })] }
    (by decide) 4 [1] [1] [2] rfl).2

end IotaCore
